import Mathlib

/-!
Verification of the git2cvs replay engine.

This file gives a shallow embedding of the program's components and proves
or refutes the specification's claims about them:

* `sanitise_branch` (src/cvs.rs): branch-name sanitisation.
* `chunkRun` (src/cvs.rs, `ArgChunker`): argument batching under a byte ceiling,
  modelled as a pure function from the push sequence to the list of batches
  handed to the flush action (including the flush performed on drop).
* `write_branch` / `get_cvs_branch` (src/database.rs): the metadata store,
  with SQLite's transaction semantics made explicit: every statement mutates a
  transaction overlay, only the final commit publishes it, and a failure at
  any step (modelled by the `failAt` step index) leaves the durable state
  untouched.
* `linear_history` (src/git.rs): first-parent linearization, with the commit
  graph abstracted as a first-parent partial function and an explicit fuel
  bound in place of the Rust loop (git graphs are acyclic so the loop
  terminates; the fuel makes the recursion total in Lean).
* `walk_tree_entry` / `processCommit` / `replayMain` (src/main.rs,
  src/state.rs): the replay engine, modelled as a pure state transformer over
  the known-files map (`state::Global`), the set of filesystem paths that
  exist, and the per-commit state (`state::Commit`), which also emits a trace
  of observable effects (`Ev`): filesystem operations and LVCS subprocess
  invocations.

File handles (`state::File`) compare equal solely on their `relative_path`,
and in a run every handle shares one environment, so handles are modelled by
their relative path; `absolute_path` and `cvs_relative_path` are the two
derived views computed from the shared environment `EnvB`.
-/

namespace GitCvs

/-! ## Branch sanitiser (src/cvs.rs, `sanitise_branch`) -/

/-- Rust `c.is_ascii_alphanumeric() || c == '-' || c == '_'`. -/
def is_allowed (c : Char) : Bool :=
  ('A' ≤ c && c ≤ 'Z') || ('a' ≤ c && c ≤ 'z') || ('0' ≤ c && c ≤ '9') || c = '-' || c = '_'

/-- One lowercase hexadecimal digit, as produced by Rust's `{:x}` formatting.
Arguments are always reduced mod 16 before use. -/
def hexDig : Nat → Char
  | 0 => '0' | 1 => '1' | 2 => '2' | 3 => '3' | 4 => '4'
  | 5 => '5' | 6 => '6' | 7 => '7' | 8 => '8' | 9 => '9'
  | 10 => 'a' | 11 => 'b' | 12 => 'c' | 13 => 'd' | 14 => 'e'
  | _ => 'f'

/-- The six zero-padded lowercase hex digits of `format!("{:06x}", n)` for
`n < 16^6` (every Unicode scalar value fits). -/
def hex6 (n : Nat) : List Char :=
  [hexDig (n / 1048576 % 16), hexDig (n / 65536 % 16), hexDig (n / 4096 % 16),
   hexDig (n / 256 % 16), hexDig (n / 16 % 16), hexDig (n % 16)]

/-- Per-character output of the sanitiser loop body: an allowed character is
pushed as-is, anything else becomes `__u` followed by `hex6` of its scalar
value. -/
def encodeChar (c : Char) : List Char :=
  if is_allowed c then [c] else '_' :: '_' :: 'u' :: hex6 c.toNat

/-- The sanitiser loop over the characters of the input. -/
def sanitiseL : List Char → List Char
  | [] => []
  | c :: cs => encodeChar c ++ sanitiseL cs

/-- Rust `sanitise_branch`: map each character of the input through
`encodeChar` and concatenate. -/
def sanitise_branch (s : String) : String :=
  String.mk (sanitiseL s.data)

/-- Does the character list begin with the escape introducer `__u`? -/
def startsEsc : List Char → Bool
  | '_' :: '_' :: 'u' :: _ => true
  | _ => false

/-- Does the character list contain the escape introducer `__u` as a
contiguous run? Each of `_`, `_`, `u` is individually in the allowed
alphabet, so inputs containing this run can collide with escapes. -/
def hasEsc : List Char → Bool
  | [] => false
  | a :: as => startsEsc (a :: as) || hasEsc as

/-! ## Argument chunker (src/cvs.rs, `ArgChunker`) -/

/-- One `ArgChunker::push`: the state is the accumulated batch `acc` and the
running byte count `size` (the Rust struct fields of the same names); if the
pushed argument would take the count past the limit the current batch is
flushed first (even when it is empty). Returns the batches flushed during
this push together with the new state. -/
def chunkStep {α : Type} (size : α → Nat) (limit : Nat) (st : List α × Nat) (a : α) :
    List (List α) × (List α × Nat) :=
  if st.2 + size a > limit then ([st.1], ([a], size a))
  else ([], (st.1 ++ [a], st.2 + size a))

/-- Run the pushes in order, collecting every batch handed to the flush
action; on drop, flush the residual batch if it is non-empty. -/
def chunkGo {α : Type} (size : α → Nat) (limit : Nat) : List α → List α × Nat → List (List α)
  | [], st => if st.1.isEmpty then [] else [st.1]
  | a :: rest, st =>
    (chunkStep size limit st a).1 ++ chunkGo size limit rest (chunkStep size limit st a).2

/-- All batches passed to the flush action for a given push sequence,
starting from the freshly constructed chunker. -/
def chunkRun {α : Type} (size : α → Nat) (limit : Nat) (pushes : List α) : List (List α) :=
  chunkGo size limit pushes ([], 0)

/-- Cumulative byte length of a batch. -/
def batchSize {α : Type} (size : α → Nat) (batch : List α) : Nat :=
  (batch.map size).sum

/-! ## Metadata store (src/database.rs) -/

/-- Commit identifiers are opaque; model them as naturals. -/
abbrev Oid := Nat

/-- Rendering of an oid for persistence (Rust `format!("{}", oid)`); any
injective rendering works for the claims. -/
def oidStr (o : Oid) : String := toString o

/-- The two persistent tables: `branch_mappings (git, cvs)` rows and
`commit_branches (oid, branch, branch_index)` rows. -/
structure DbState where
  branch_mappings : List (String × String)
  commit_branches : List (String × String × Nat)
deriving DecidableEq

/-- Rust `Database::get_cvs_branch`: `SELECT cvs FROM branch_mappings WHERE
git = ?`. -/
def get_cvs_branch (db : DbState) (git : String) : Option String :=
  (db.branch_mappings.find? (fun r => decide (r.1 = git))).map (fun r => r.2)

/-- The `INSERT OR REPLACE INTO branch_mappings` statement: the conflicting
row for the primary key `git` is deleted and the new row inserted. -/
def upsertMapping (rows : List (String × String)) (git cvs : String) :
    List (String × String) :=
  rows.filter (fun r => decide (r.1 ≠ git)) ++ [(git, cvs)]

/-- The prepared-statement loop of `write_branch`: insert one
`commit_branches` row per commit, `branch_index` counting from `i`.
The insert for commit `i` is transaction step `2 + i`; if `failAt` names
that step the statement fails and `none` is returned. -/
def insertLoop (rows : List (String × String × Nat)) (git : String) :
    List Oid → Nat → Option Nat → Option (List (String × String × Nat))
  | [], _, _ => some rows
  | o :: rest, i, failAt =>
    if failAt = some (2 + i) then none
    else insertLoop (rows ++ [(oidStr o, git, i)]) git rest (i + 1) failAt

/-- Rust `Database::write_branch`. All statements run against the
transaction overlay; the overlay is published only by the final `commit`.
`failAt` injects a failure at one transaction step (0 = the upsert, 1 = the
delete, `2 + i` = the insert of commit `i`, `2 + n` = the commit itself);
on failure the durable state `db` is returned unchanged, which is SQLite's
rollback-on-drop of an uncommitted transaction. Returns the resulting
durable state and whether the call succeeded. -/
def write_branch (db : DbState) (git cvs : String) (oids : List Oid)
    (failAt : Option Nat) : DbState × Bool :=
  if failAt = some 0 then (db, false)
  else
    let m1 := upsertMapping db.branch_mappings git cvs
    if failAt = some 1 then (db, false)
    else
      let cb1 := db.commit_branches.filter (fun r => decide (r.2.1 ≠ git))
      match insertLoop cb1 git oids 0 failAt with
      | none => (db, false)
      | some cb2 =>
        if failAt = some (2 + oids.length) then (db, false)
        else (⟨m1, cb2⟩, true)

/-! ## DVCS adapter (src/git.rs) -/

/-- The loop of `Branch::linear_history`: push the current commit at the
front of the deque, then follow the first parent until a commit with no
parent is reached. `fp` abstracts `commit.parent(0)` (`none` is git's
NotFound). The fuel bound makes the recursion total; the Rust loop
terminates because git commit graphs are acyclic. -/
def linear_history_go (fp : Oid → Option Oid) : Nat → Oid → List Oid → Option (List Oid)
  | 0, _, _ => none
  | fuel + 1, c, acc =>
    match fp c with
    | none => some (c :: acc)
    | some p => linear_history_go fp fuel p (c :: acc)

/-- Rust `Branch::linear_history`, oldest first. -/
def linear_history (fp : Oid → Option Oid) (fuel : Nat) (tip : Oid) : Option (List Oid) :=
  linear_history_go fp fuel tip []

/-! ## Replay state (src/state.rs) and engine (src/main.rs) -/

/-- The shared environment of `state::Environment`: the temporary checkout
directory and the `--target` subdirectory (`cvs_base`). -/
structure EnvB where
  absolute_base : String
  cvs_base : String
deriving DecidableEq

/-- Rust `File::absolute_path`: `absolute_base / cvs_base / relative_path`. -/
def absolute_path (env : EnvB) (rel : String) : String :=
  env.absolute_base ++ "/" ++ env.cvs_base ++ "/" ++ rel

/-- Rust `File::cvs_relative_path`: `cvs_base / relative_path`. -/
def cvs_relative_path (env : EnvB) (rel : String) : String :=
  env.cvs_base ++ "/" ++ rel

/-- A blob as read from the DVCS: content bytes and the binary hint. -/
structure Blob where
  content : List Nat
  is_binary : Bool
deriving DecidableEq

/-- The entry kinds of `git2::ObjectType` as seen by the visitor. -/
inductive EntryKind
  | blob
  | tree
  | other
deriving DecidableEq

/-- One pre-order tree-walk visit: `path` is the joined `git_path`
(prefix plus entry name), together with the entry's object id, kind and
POSIX filemode. -/
structure Entry where
  path : String
  kind : EntryKind
  oid : Oid
  filemode : Nat
deriving DecidableEq

/-- Observable effects of the engine: filesystem mutations and LVCS
subprocess invocations, in program order. `fsUnlink` is included so that
claims about working-directory removal are statable; the code never emits
it. -/
inductive Ev
  | fsWrite (path : String) (content : List Nat)
  | fsSetTimes (path : String) (t : Int)
  | fsSetPerms (path : String)
  | fsCreateDirAll (path : String)
  | fsUnlink (path : String)
  | cvsAdd (paths : List String) (bin : Bool)
  | cvsRemove (paths : List String)
  | cvsCommit (msg : List Nat)
  | dbWriteBranch (git cvs : String) (commits : List Oid)
  | tempdirCreate
  | cvsCheckout
deriving DecidableEq

/-- Recogniser for filesystem unlink events. -/
def isUnlink : Ev → Bool
  | .fsUnlink _ => true
  | _ => false

/-- Rust `Global::get_oid`: look a handle up in `known_files`. -/
def get_oid (g : List (String × Oid)) (p : String) : Option Oid :=
  (g.find? (fun kv => decide (kv.1 = p))).map (fun kv => kv.2)

/-- Rust `Global::save_oid`: `HashMap::insert`, replacing any existing
entry for the handle. -/
def save_oid (g : List (String × Oid)) (p : String) (o : Oid) : List (String × Oid) :=
  if g.any (fun kv => decide (kv.1 = p)) then
    g.map (fun kv => if kv.1 = p then (kv.1, o) else kv)
  else g ++ [(p, o)]

/-- Rust `Global::remove_files_unseen_in_commit`: retain the entries whose
handle was seen this commit, and return the removed handles. -/
def remove_files_unseen_in_commit (g : List (String × Oid)) (seen : List String) :
    List (String × Oid) × List String :=
  (g.filter (fun kv => decide (kv.1 ∈ seen)),
   (g.filter (fun kv => decide (kv.1 ∉ seen))).map (fun kv => kv.1))

/-- Rust `state::Commit`: ordered new-file lists partitioned by binary hint,
and the set of handles seen this commit. -/
structure CState where
  binary : List String
  non_binary : List String
  seen : List String
deriving DecidableEq

/-- Rust `Commit::new()`. -/
def CState.empty : CState := ⟨[], [], []⟩

/-- Rust `Commit::new_file`. -/
def new_file (cs : CState) (p : String) (bin : Bool) : CState :=
  if bin then { cs with binary := cs.binary ++ [p] }
  else { cs with non_binary := cs.non_binary ++ [p] }

/-- Rust `Commit::seen_file` (`HashSet::insert`). -/
def seen_file (cs : CState) (p : String) : CState :=
  if p ∈ cs.seen then cs else { cs with seen := cs.seen ++ [p] }

/-- Model of `fs::write` and `fs::create_dir_all` making the path exist. -/
def fsAdd (fs : List String) (p : String) : List String :=
  if p ∈ fs then fs else fs ++ [p]

/-- The filesystem events of the blob write branch: write the content, set
both file times to the commit time, and union the executable bits when the
filemode has any of `0o111`. -/
def writeEvs (e : Entry) (abs : String) (blob : Blob) (ctime : Int) : List Ev :=
  [Ev.fsWrite abs blob.content, Ev.fsSetTimes abs ctime] ++
    (if e.filemode &&& 0o111 ≠ 0 then [Ev.fsSetPerms abs] else [])

/-- State threaded through the tree walk: `known_files`, the set of
existing filesystem paths, the per-commit state, and the emitted events. -/
structure WalkSt where
  g : List (String × Oid)
  fs : List String
  cs : CState
  evs : List Ev
deriving DecidableEq

/-- Rust `walk_tree_entry` (src/main.rs). Blob entries whose oid matches the
recorded oid are skipped; otherwise the blob is written, timestamped and
possibly made executable, recorded as new when previously unknown, and its
oid saved; the handle is always marked seen. Tree entries create the
directory (and record it as a new non-binary file) only when the path does
not yet exist — note no `seen_file` call. Other kinds are skipped. -/
def walk_tree_entry (repo : Oid → Blob) (ctime : Int) (env : EnvB) (st : WalkSt)
    (e : Entry) : WalkSt :=
  match e.kind with
  | .blob =>
    let blob := repo e.oid
    let abs := absolute_path env e.path
    match get_oid st.g e.path with
    | some last =>
      if last = e.oid then { st with cs := seen_file st.cs e.path }
      else
        ⟨save_oid st.g e.path e.oid, fsAdd st.fs abs,
          seen_file st.cs e.path, st.evs ++ writeEvs e abs blob ctime⟩
    | none =>
      ⟨save_oid st.g e.path e.oid, fsAdd st.fs abs,
        seen_file (new_file st.cs e.path blob.is_binary) e.path,
        st.evs ++ writeEvs e abs blob ctime⟩
  | .tree =>
    let abs := absolute_path env e.path
    if abs ∈ st.fs then st
    else
      ⟨st.g, st.fs ++ [abs], new_file st.cs e.path false,
        st.evs ++ [Ev.fsCreateDirAll abs]⟩
  | .other => st

/-- The pre-order walk of one commit's tree, as the fold of
`walk_tree_entry` over the visited entries. -/
def walkTree (repo : Oid → Blob) (ctime : Int) (env : EnvB) (tree : List Entry)
    (st : WalkSt) : WalkSt :=
  tree.foldl (walk_tree_entry repo ctime env) st

/-- Rust `Repository::add_multiple`: drain the paths through the chunker;
each flushed batch becomes one `cvs add` invocation (OsString byte
lengths). -/
def add_multiple (limit : Nat) (paths : List String) (bin : Bool) : List Ev :=
  (chunkRun String.utf8ByteSize limit paths).map (fun batch => Ev.cvsAdd batch bin)

/-- Rust `Repository::remove_multiple`: symmetric to `add_multiple`. -/
def remove_multiple (limit : Nat) (paths : List String) : List Ev :=
  (chunkRun String.utf8ByteSize limit paths).map (fun batch => Ev.cvsRemove batch)

/-- One iteration of the replay loop in `main` (src/main.rs lines 96-149):
walk the commit tree, remove the files unseen in this commit, add the new
non-binary then binary files, and commit. Returns the new `known_files`,
the new filesystem, and the emitted events. -/
def processCommit (repo : Oid → Blob) (env : EnvB) (limit : Nat) (tree : List Entry)
    (ctime : Int) (msg : List Nat) (g : List (String × Oid)) (fs : List String) :
    List (String × Oid) × List String × List Ev :=
  let w := walkTree repo ctime env tree ⟨g, fs, CState.empty, []⟩
  let ru := remove_files_unseen_in_commit w.g w.cs.seen
  (ru.1, w.fs,
   w.evs ++ remove_multiple limit (ru.2.map (cvs_relative_path env)) ++
     add_multiple limit (w.cs.non_binary.map (cvs_relative_path env)) false ++
     add_multiple limit (w.cs.binary.map (cvs_relative_path env)) true ++
     [Ev.cvsCommit msg])

/-- The replay loop over the linearized commits, oldest first. `trees`,
`times` and `msgs` abstract `repo.commit(oid)`. -/
def replayLoop (repo : Oid → Blob) (env : EnvB) (limit : Nat) (trees : Oid → List Entry)
    (times : Oid → Int) (msgs : Oid → List Nat) :
    List Oid → List (String × Oid) → List String → List Ev →
      List (String × Oid) × List String × List Ev
  | [], g, fs, evs => (g, fs, evs)
  | oid :: rest, g, fs, evs =>
    let r := processCommit repo env limit (trees oid) (times oid) (msgs oid) g fs
    replayLoop repo env limit trees times msgs rest r.1 r.2.1 (evs ++ r.2.2)

/-- Rust `main` (src/main.rs). In order: find the branch (`none` is a
fatal lookup miss), refuse when the store already maps this branch,
sanitise, linearize, persist via `write_branch` (`Ev.dbWriteBranch` marks
the call), create the temporary directory, check out, create the target
directory, add the target, then replay every commit. Returns the durable
store, the event trace, and whether the run succeeded. -/
def replayMain (db : DbState) (branchTip : Option Oid) (fp : Oid → Option Oid)
    (repo : Oid → Blob) (trees : Oid → List Entry) (times : Oid → Int)
    (msgs : Oid → List Nat) (branchName : String) (env : EnvB) (limit fuel : Nat)
    (failAt : Option Nat) : DbState × List Ev × Bool :=
  match branchTip with
  | none => (db, [], false)
  | some tip =>
    if (get_cvs_branch db branchName).isSome then (db, [], false)
    else
      let cvs_branch := sanitise_branch branchName
      match linear_history fp fuel tip with
      | none => (db, [], false)
      | some commits =>
        let wb := write_branch db branchName cvs_branch commits failAt
        if wb.2 then
          let target := env.absolute_base ++ "/" ++ env.cvs_base
          let r := replayLoop repo env limit trees times msgs commits [] [target] []
          (wb.1,
           [Ev.dbWriteBranch branchName cvs_branch commits, Ev.tempdirCreate,
            Ev.cvsCheckout, Ev.fsCreateDirAll target, Ev.cvsAdd [env.cvs_base] false] ++
             r.2.2,
           true)
        else (wb.1, [Ev.dbWriteBranch branchName cvs_branch commits], false)

/-! ## Concrete instances used by witnesses and counterexamples -/

/-- A blob store where every oid maps to an empty non-binary blob. -/
def repo0 : Oid → Blob := fun _ => ⟨[], false⟩

/-- A concrete environment: checkout at `/tmp/x`, target `src`. -/
def env0 : EnvB := ⟨"/tmp/x", "src"⟩

/-- A store already mapping branch `main`. -/
def db0 : DbState := ⟨[("main", "main")], [("9", "other", 0)]⟩

/-- A linear first-parent function: `n`'s parent is `n - 1`, and `0` is a
root. -/
def fpW : Oid → Option Oid := fun n => if n = 0 then none else some (n - 1)

/-- A tree consisting of one directory entry `d`. -/
def treeD : List Entry := [⟨"d", EntryKind.tree, 0, 0⟩]

/-- A tree consisting of one blob entry `a` with oid 1. -/
def treeA : List Entry := [⟨"a", EntryKind.blob, 1, 0⟩]

/-- A blob store where every oid maps to an empty binary blob. -/
def repoB : Oid → Blob := fun _ => ⟨[], true⟩

/-! ## Theorems -/

example : sanitise_branch "foo" = "foo" := by decide
example : sanitise_branch "foo-Bar_quux0" = "foo-Bar_quux0" := by decide
example : sanitise_branch " " = "__u000020" := by decide
example : chunkRun List.length 1 [[0, 0]] = [[], [[0, 0]]] := by decide
example : chunkRun List.length 3 [[0], [1], [2], [3]] = [[[0], [1], [2]], [[3]]] := by decide

theorem chunkGo_flatten {α : Type} (size : α → Nat) (limit : Nat) :
    ∀ (ps : List α) (st : List α × Nat), (chunkGo size limit ps st).flatten = st.1 ++ ps := by
  intro ps
  induction ps with
  | nil =>
    intro st
    by_cases h : st.1.isEmpty
    · simp [chunkGo, h, List.isEmpty_iff.mp h]
    · simp [chunkGo, h]
  | cons a rest ih =>
    intro st
    simp only [chunkGo, chunkStep]
    by_cases h : st.2 + size a > limit
    · simp [h, ih]
    · simp [h, ih]

theorem chunkGo_batches {α : Type} (size : α → Nat) (limit : Nat) :
    ∀ (ps : List α) (st : List α × Nat), batchSize size st.1 = st.2 →
      (st.2 ≤ limit ∨ ∃ a, st.1 = [a] ∧ limit < size a) →
      ∀ b ∈ chunkGo size limit ps st,
        batchSize size b ≤ limit ∨ ∃ a, b = [a] ∧ limit < size a := by
  intro ps
  induction ps with
  | nil =>
    intro st hsz hinv b hb
    by_cases h : st.1.isEmpty
    · simp [chunkGo, h] at hb
    · simp [chunkGo, h] at hb
      subst hb
      rcases hinv with h1 | h2
      · exact Or.inl (hsz ▸ h1)
      · exact Or.inr h2
  | cons a rest ih =>
    intro st hsz hinv b hb
    simp only [chunkGo, chunkStep] at hb
    by_cases h : st.2 + size a > limit
    · simp only [if_pos h, List.cons_append, List.nil_append, List.mem_cons] at hb
      rcases hb with hb | hb
      · subst hb
        rcases hinv with h1 | h2
        · exact Or.inl (hsz ▸ h1)
        · exact Or.inr h2
      · refine ih ([a], size a) (by simp [batchSize]) ?_ b hb
        by_cases hla : size a ≤ limit
        · exact Or.inl hla
        · exact Or.inr ⟨a, rfl, by omega⟩
    · simp only [if_neg h, List.nil_append] at hb
      refine ih (st.1 ++ [a], st.2 + size a) (by simp [batchSize, ← hsz]) (Or.inl (by omega)) b hb

/-- C6: Chunker coverage — the concatenation, in order, of the batches passed
to the flush action (including the flush performed on drop) equals the
sequence of pushed arguments; nothing is dropped, duplicated or reordered. -/
theorem chunker_coverage {α : Type} (size : α → Nat) (limit : Nat) (pushes : List α) :
    (chunkRun size limit pushes).flatten = pushes := by
  simpa [chunkRun] using chunkGo_flatten size limit pushes ([], 0)

/-- C7 counterexample: with ceiling 1, pushing a single two-byte argument
produces a flushed batch of cumulative length 2 > 1 (and an empty batch
before it), so the claim that no flushed batch exceeds the ceiling is
false. -/
theorem chunker_ceiling_cex :
    ¬ (∀ b ∈ chunkRun List.length 1 [[0, 0]], batchSize List.length b ≤ 1) := by
  decide

/-- C7 (amended): every batch passed to the flush action either has
cumulative byte length at most the ceiling, or is a singleton whose sole
argument is itself longer than the ceiling. -/
theorem chunker_ceiling (α : Type) (size : α → Nat) (limit : Nat) (pushes : List α)
    (b : List α) (hb : b ∈ chunkRun size limit pushes) :
    batchSize size b ≤ limit ∨ ∃ a, b = [a] ∧ limit < size a :=
  chunkGo_batches size limit pushes ([], 0) (by simp [batchSize]) (Or.inl (Nat.zero_le _)) b hb

/-- Witness for `chunker_ceiling` at a concrete batch of the run with
ceiling 5 and a single push of length 2. -/
theorem chunker_ceiling_witness :
    batchSize List.length [[0, 0]] ≤ 5 ∨ ∃ a, [[0, 0]] = [a] ∧ 5 < List.length a :=
  chunker_ceiling (List Nat) List.length 5 [[0, 0]] [[0, 0]] (by decide)

theorem encodeChar_ne_nil (c : Char) : encodeChar c ≠ [] := by
  unfold encodeChar
  split <;> simp

theorem sanitiseL_eq_nil {s : List Char} (h : sanitiseL s = []) : s = [] := by
  cases s with
  | nil => rfl
  | cons c cs =>
    simp only [sanitiseL, List.append_eq_nil] at h
    exact absurd h.1 (encodeChar_ne_nil c)

theorem hasEsc_cons {a : Char} {as : List Char} (h : hasEsc (a :: as) = false) :
    hasEsc as = false := by
  simp only [hasEsc, Bool.or_eq_false_iff] at h
  exact h.2

theorem sanitiseL_uu {as r : List Char} (h : sanitiseL as = '_' :: 'u' :: r) :
    ∃ as', as = '_' :: 'u' :: as' := by
  match as with
  | [] => simp [sanitiseL] at h
  | x :: xs =>
    rw [sanitiseL, encodeChar] at h
    by_cases hx : is_allowed x = true
    · rw [if_pos hx, List.cons_append, List.nil_append] at h
      injection h with h1 h2
      subst h1
      match xs with
      | [] => simp [sanitiseL] at h2
      | y :: ys =>
        rw [sanitiseL, encodeChar] at h2
        by_cases hy : is_allowed y = true
        · rw [if_pos hy, List.cons_append, List.nil_append] at h2
          injection h2 with h3 h4
          subst h3
          exact ⟨ys, rfl⟩
        · rw [if_neg hy] at h2
          injection h2 with h3 h4
          exact absurd h3 (by decide)
    · rw [if_neg hx] at h
      injection h with h1 h2
      injection h2 with h3 h4
      exact absurd h3 (by decide)

theorem char_toNat_lt (c : Char) : c.toNat < 16777216 := by
  have h : Nat.isValidChar c.val.toNat := c.valid
  show c.val.toNat < 16777216
  rcases h with h1 | ⟨h1, h2⟩ <;> omega

theorem hexDig_inj : ∀ m, m < 16 → ∀ n, n < 16 → hexDig m = hexDig n → m = n := by
  decide

theorem hex6_inj {m n : Nat} (hm : m < 16777216) (hn : n < 16777216)
    (h : hex6 m = hex6 n) : m = n := by
  simp only [hex6, List.cons.injEq, and_true] at h
  obtain ⟨h1, h2, h3, h4, h5, h6⟩ := h
  have m16 : (0:Nat) < 16 := by norm_num
  have e1 := hexDig_inj _ (Nat.mod_lt _ m16) _ (Nat.mod_lt _ m16) h1
  have e2 := hexDig_inj _ (Nat.mod_lt _ m16) _ (Nat.mod_lt _ m16) h2
  have e3 := hexDig_inj _ (Nat.mod_lt _ m16) _ (Nat.mod_lt _ m16) h3
  have e4 := hexDig_inj _ (Nat.mod_lt _ m16) _ (Nat.mod_lt _ m16) h4
  have e5 := hexDig_inj _ (Nat.mod_lt _ m16) _ (Nat.mod_lt _ m16) h5
  have e6 := hexDig_inj _ (Nat.mod_lt _ m16) _ (Nat.mod_lt _ m16) h6
  omega

theorem char_toNat_injective {a b : Char} (h : a.toNat = b.toNat) : a = b := by
  have := congrArg Char.ofNat h
  rwa [Char.ofNat_toNat, Char.ofNat_toNat] at this

theorem sanitiseL_inj : ∀ s t : List Char, hasEsc s = false → hasEsc t = false →
    sanitiseL s = sanitiseL t → s = t := by
  intro s
  induction s with
  | nil =>
    intro t _ _ h
    exact (sanitiseL_eq_nil h.symm).symm
  | cons a as ih =>
    intro t hs ht h
    cases t with
    | nil => exact absurd (sanitiseL_eq_nil h) (by simp)
    | cons b bs =>
      have hs' := hasEsc_cons hs
      have ht' := hasEsc_cons ht
      rw [sanitiseL, sanitiseL, encodeChar, encodeChar] at h
      by_cases ha : is_allowed a = true <;> by_cases hb : is_allowed b = true
      · rw [if_pos ha, if_pos hb, List.cons_append, List.cons_append,
          List.nil_append, List.nil_append] at h
        injection h with h1 h2
        rw [h1, ih bs hs' ht' h2]
      · rw [if_pos ha, if_neg hb, List.cons_append, List.nil_append] at h
        injection h with h1 h2
        obtain ⟨as', has⟩ := sanitiseL_uu (r := hex6 b.toNat ++ sanitiseL bs) h2
        rw [has, h1] at hs
        exact absurd hs (by simp [hasEsc, startsEsc])
      · rw [if_neg ha, if_pos hb] at h
        simp only [List.cons_append, List.singleton_append, List.nil_append] at h
        injection h with h1 h2
        obtain ⟨bs', hbs⟩ := sanitiseL_uu (r := hex6 a.toNat ++ sanitiseL as) h2.symm
        rw [hbs, ← h1] at ht
        exact absurd ht (by simp [hasEsc, startsEsc])
      · rw [if_neg ha, if_neg hb] at h
        injection h with h1 h2
        injection h2 with h3 h4
        injection h4 with h5 h6
        obtain ⟨hh, htl⟩ := List.append_inj h6 (by rfl)
        have hab := char_toNat_injective (hex6_inj (char_toNat_lt a) (char_toNat_lt b) hh)
        rw [hab, ih bs hs' ht' htl]

/-- C2 counterexample: the sanitiser is not injective on arbitrary Unicode
strings — the allowed alphabet contains `_` and `u`, so an input that already
contains the escape introducer `__u` collides with an escaped character. -/
theorem sanitise_branch_not_injective :
    sanitise_branch " " = sanitise_branch "__u000020" ∧ (" " : String) ≠ "__u000020" := by
  constructor
  · decide
  · decide

/-- C2 (amended): `sanitise_branch` is injective on inputs that do not
contain the escape introducer `__u` as a substring. -/
theorem sanitise_branch_inj (s t : String) (hs : hasEsc s.data = false)
    (ht : hasEsc t.data = false) (h : sanitise_branch s = sanitise_branch t) : s = t := by
  have hd : sanitiseL s.data = sanitiseL t.data := congrArg String.data h
  have he := sanitiseL_inj s.data t.data hs ht hd
  cases s
  cases t
  exact congrArg String.mk he

/-- Witness for `sanitise_branch_inj` at concrete escape-free inputs. -/
theorem sanitise_branch_inj_witness : ("a-b" : String) = "a-b" :=
  sanitise_branch_inj "a-b" "a-b" (by decide) (by decide) rfl

theorem insertLoop_eq (git : String) :
    ∀ (oids : List Oid) (rows : List (String × String × Nat)) (i : Nat)
      (failAt : Option Nat) (out : List (String × String × Nat)),
      insertLoop rows git oids i failAt = some out →
      out = rows ++ (List.enumFrom i oids).map (fun p => (oidStr p.2, git, p.1)) := by
  intro oids
  induction oids with
  | nil =>
    intro rows i failAt out h
    simp only [insertLoop, Option.some.injEq] at h
    simp [← h]
  | cons o rest ih =>
    intro rows i failAt out h
    rw [insertLoop] at h
    by_cases hf : failAt = some (2 + i)
    · rw [if_pos hf] at h
      exact absurd h (by simp)
    · rw [if_neg hf] at h
      rw [ih (rows ++ [(oidStr o, git, i)]) (i + 1) failAt out h]
      simp [List.enumFrom]

/-- C3: `write_branch` is transactionally atomic. On failure at any step the
durable store is unchanged (so a subsequent `get_cvs_branch` returns the
pre-call value and the `commit_branches` rows are untouched); on success the
mapping row is upserted, the branch's old `commit_branches` rows are replaced
by one row per commit with `branch_index` counting from zero in iteration
order, and rows of other branches are preserved. -/
theorem write_branch_atomic (db : DbState) (git cvs : String) (oids : List Oid)
    (failAt : Option Nat) (db' : DbState) (ok : Bool)
    (h : write_branch db git cvs oids failAt = (db', ok)) :
    (ok = false → db' = db ∧ get_cvs_branch db' git = get_cvs_branch db git ∧
      db'.commit_branches = db.commit_branches) ∧
    (ok = true →
      get_cvs_branch db' git = some cvs ∧
      db'.commit_branches.filter (fun r => decide (r.2.1 = git)) =
        (List.enumFrom 0 oids).map (fun p => (oidStr p.2, git, p.1)) ∧
      db'.commit_branches.filter (fun r => decide (r.2.1 ≠ git)) =
        db.commit_branches.filter (fun r => decide (r.2.1 ≠ git))) := by
  simp only [write_branch] at h
  split at h
  · injection h with h1 h2
    subst h1
    subst h2
    exact ⟨fun _ => ⟨rfl, rfl, rfl⟩, fun hc => nomatch hc⟩
  · split at h
    · injection h with h1 h2
      subst h1
      subst h2
      exact ⟨fun _ => ⟨rfl, rfl, rfl⟩, fun hc => nomatch hc⟩
    · split at h
      · injection h with h1 h2
        subst h1
        subst h2
        exact ⟨fun _ => ⟨rfl, rfl, rfl⟩, fun hc => nomatch hc⟩
      · rename_i cb2 heq
        split at h
        · injection h with h1 h2
          subst h1
          subst h2
          exact ⟨fun _ => ⟨rfl, rfl, rfl⟩, fun hc => nomatch hc⟩
        · injection h with h1 h2
          subst h1
          subst h2
          refine ⟨(fun hc => nomatch hc), fun _ => ?_⟩
          have hcb := insertLoop_eq git oids _ 0 failAt cb2 heq
          subst hcb
          refine ⟨?_, ?_, ?_⟩
          · have hnone : (db.branch_mappings.filter (fun r => decide (r.1 ≠ git))).find?
                (fun r => decide (r.1 = git)) = none := by
              rw [List.find?_eq_none]
              intro x hx
              have hmem := List.mem_filter.mp hx
              simp only [decide_eq_true_eq] at hmem ⊢
              exact hmem.2
            simp [get_cvs_branch, upsertMapping, List.find?_append, hnone]
          · rw [List.filter_append]
            have h1 : (db.commit_branches.filter (fun r => decide (r.2.1 ≠ git))).filter
                (fun r => decide (r.2.1 = git)) = [] := by
              rw [List.filter_eq_nil_iff]
              intro x hx
              have hmem := List.mem_filter.mp hx
              simp only [decide_eq_true_eq] at hmem ⊢
              exact hmem.2
            have h2 : ((List.enumFrom 0 oids).map (fun p => (oidStr p.2, git, p.1))).filter
                (fun r => decide (r.2.1 = git)) =
                (List.enumFrom 0 oids).map (fun p => (oidStr p.2, git, p.1)) := by
              rw [List.filter_eq_self]
              intro x hx
              obtain ⟨p, _, hp⟩ := List.mem_map.mp hx
              simp [← hp]
            rw [h1, h2, List.nil_append]
          · rw [List.filter_append]
            have h1 : (db.commit_branches.filter (fun r => decide (r.2.1 ≠ git))).filter
                (fun r => decide (r.2.1 ≠ git)) =
                db.commit_branches.filter (fun r => decide (r.2.1 ≠ git)) := by
              rw [List.filter_eq_self]
              intro x hx
              exact (List.mem_filter.mp hx).2
            have h2 : ((List.enumFrom 0 oids).map (fun p => (oidStr p.2, git, p.1))).filter
                (fun r => decide (r.2.1 ≠ git)) = [] := by
              rw [List.filter_eq_nil_iff]
              intro x hx
              obtain ⟨p, _, hp⟩ := List.mem_map.mp hx
              simp [← hp]
            rw [h1, h2, List.append_nil]

/-- Witness for `write_branch_atomic`: a successful call with one commit
against the concrete store `db0`. -/
theorem write_branch_atomic_witness :
    get_cvs_branch ⟨[("main", "main"), ("b", "c")], [("9", "other", 0), ("7", "b", 0)]⟩ "b" =
      some "c" ∧
    (DbState.commit_branches ⟨[("main", "main"), ("b", "c")], [("9", "other", 0), ("7", "b", 0)]⟩).filter
        (fun r => decide (r.2.1 = "b")) =
      (List.enumFrom 0 [7]).map (fun p => (oidStr p.2, "b", p.1)) ∧
    (DbState.commit_branches ⟨[("main", "main"), ("b", "c")], [("9", "other", 0), ("7", "b", 0)]⟩).filter
        (fun r => decide (r.2.1 ≠ "b")) =
      db0.commit_branches.filter (fun r => decide (r.2.1 ≠ "b")) :=
  (write_branch_atomic db0 "b" "c" [7] none
    ⟨[("main", "main"), ("b", "c")], [("9", "other", 0), ("7", "b", 0)]⟩ true (by decide)).2 rfl

theorem linear_history_go_spec (fp : Oid → Option Oid) :
    ∀ (fuel : Nat) (c : Oid) (acc l : List Oid),
      linear_history_go fp fuel c acc = some l →
      ∃ hist, hist ≠ [] ∧ hist.getLast? = some c ∧
        List.Chain' (fun x y => fp y = some x) hist ∧
        (∀ x ∈ hist.head?, fp x = none) ∧ l = hist ++ acc := by
  intro fuel
  induction fuel with
  | zero =>
    intro c acc l h
    simp [linear_history_go] at h
  | succ n ih =>
    intro c acc l h
    rw [linear_history_go] at h
    cases hfp : fp c with
    | none =>
      rw [hfp] at h
      injection h with h1
      refine ⟨[c], by simp, by simp, by simp, ?_, by simp [← h1]⟩
      intro x hx
      simp only [List.head?_cons, Option.mem_def, Option.some.injEq] at hx
      subst hx
      exact hfp
    | some p =>
      rw [hfp] at h
      obtain ⟨hist, hne, hlast, hchain, hhead, hl⟩ := ih p (c :: acc) l h
      refine ⟨hist ++ [c], by simp, by simp [List.getLast?_concat], ?_, ?_, ?_⟩
      · rw [List.chain'_append]
        refine ⟨hchain, List.chain'_singleton c, ?_⟩
        intro x hx y hy
        simp only [List.head?_cons, Option.mem_def, Option.some.injEq] at hy
        subst hy
        rw [hlast, Option.mem_def, Option.some.injEq] at hx
        subst hx
        exact hfp
      · intro x hx
        cases hh : hist with
        | nil => exact absurd hh hne
        | cons a as =>
          rw [hh, List.cons_append, List.head?_cons, Option.mem_def, Option.some.injEq] at hx
          subst hx
          apply hhead
          rw [hh, List.head?_cons]
          rfl
      · rw [hl, List.append_assoc, List.singleton_append]

/-- C5: `linear_history` returns a strictly oldest-to-newest sequence: the
result is non-empty, its last element is the branch tip, every adjacent pair
`(c_i, c_{i+1})` satisfies `first_parent (c_{i+1}) = some c_i`, and the first
element has no parent. -/
theorem linear_history_spec (fp : Oid → Option Oid) (fuel : Nat) (tip : Oid) (l : List Oid)
    (h : linear_history fp fuel tip = some l) :
    l ≠ [] ∧ l.getLast? = some tip ∧ List.Chain' (fun x y => fp y = some x) l ∧
      ∀ x ∈ l.head?, fp x = none := by
  obtain ⟨hist, hne, hlast, hchain, hhead, hl⟩ := linear_history_go_spec fp fuel tip [] l h
  rw [List.append_nil] at hl
  subst hl
  exact ⟨hne, hlast, hchain, hhead⟩

/-- Witness for `linear_history_spec` on the linear parent function `fpW`
with tip 2. -/
theorem linear_history_spec_witness :
    ([0, 1, 2] : List Oid) ≠ [] ∧ ([0, 1, 2] : List Oid).getLast? = some 2 ∧
      List.Chain' (fun x y => fpW y = some x) [0, 1, 2] ∧
      ∀ x ∈ ([0, 1, 2] : List Oid).head?, fpW x = none :=
  linear_history_spec fpW 5 2 [0, 1, 2] (by rfl)

theorem seen_file_binary (cs : CState) (p : String) : (seen_file cs p).binary = cs.binary := by
  unfold seen_file
  split <;> rfl

theorem seen_file_non_binary (cs : CState) (p : String) :
    (seen_file cs p).non_binary = cs.non_binary := by
  unfold seen_file
  split <;> rfl

theorem seen_file_mono (cs : CState) (p : String) {q : String} (h : q ∈ cs.seen) :
    q ∈ (seen_file cs p).seen := by
  unfold seen_file
  split
  · exact h
  · exact List.mem_append_left _ h

theorem seen_file_self (cs : CState) (p : String) : p ∈ (seen_file cs p).seen := by
  unfold seen_file
  split
  · assumption
  · simp

theorem new_file_seen (cs : CState) (p : String) (b : Bool) : (new_file cs p b).seen = cs.seen := by
  unfold new_file
  split <;> rfl

theorem new_file_true_binary (cs : CState) (p : String) :
    (new_file cs p true).binary = cs.binary ++ [p] := rfl

theorem new_file_true_non_binary (cs : CState) (p : String) :
    (new_file cs p true).non_binary = cs.non_binary := rfl

theorem new_file_false_binary (cs : CState) (p : String) :
    (new_file cs p false).binary = cs.binary := rfl

theorem new_file_false_non_binary (cs : CState) (p : String) :
    (new_file cs p false).non_binary = cs.non_binary ++ [p] := rfl

theorem writeEvs_unlink (e : Entry) (abs : String) (blob : Blob) (ctime : Int) :
    ∀ x ∈ writeEvs e abs blob ctime, isUnlink x = false := by
  intro x hx
  rw [writeEvs] at hx
  rcases List.mem_append.mp hx with h | h
  · rcases List.mem_cons.mp h with rfl | h2
    · rfl
    · rcases List.mem_singleton.mp h2 with rfl
      rfl
  · split at h
    · rcases List.mem_singleton.mp h with rfl
      rfl
    · cases h

theorem walk_tree_entry_evs_shape (repo : Oid → Blob) (ctime : Int) (env : EnvB)
    (st : WalkSt) (e : Entry) :
    ∃ extra, (walk_tree_entry repo ctime env st e).evs = st.evs ++ extra ∧
      ∀ x ∈ extra, isUnlink x = false := by
  cases hk : e.kind with
  | blob =>
    cases hg : get_oid st.g e.path with
    | some last =>
      by_cases hl : last = e.oid
      · refine ⟨[], ?_, by simp⟩
        simp [walk_tree_entry, hk, hg, hl, seen_file]
      · refine ⟨writeEvs e (absolute_path env e.path) (repo e.oid) ctime, ?_,
          writeEvs_unlink _ _ _ _⟩
        simp [walk_tree_entry, hk, hg, hl]
    | none =>
      refine ⟨writeEvs e (absolute_path env e.path) (repo e.oid) ctime, ?_,
        writeEvs_unlink _ _ _ _⟩
      simp [walk_tree_entry, hk, hg]
  | tree =>
    by_cases hm : absolute_path env e.path ∈ st.fs
    · exact ⟨[], by simp [walk_tree_entry, hk, hm], by simp⟩
    · refine ⟨[Ev.fsCreateDirAll (absolute_path env e.path)], ?_, ?_⟩
      · simp [walk_tree_entry, hk, hm]
      · intro x hx
        rcases List.mem_singleton.mp hx with rfl
        rfl
  | other => exact ⟨[], by simp [walk_tree_entry, hk], by simp⟩

theorem walkTree_unlink (repo : Oid → Blob) (ctime : Int) (env : EnvB) :
    ∀ (tree : List Entry) (st : WalkSt), (∀ x ∈ st.evs, isUnlink x = false) →
      ∀ x ∈ (walkTree repo ctime env tree st).evs, isUnlink x = false := by
  intro tree
  induction tree with
  | nil =>
    intro st h
    simpa [walkTree] using h
  | cons a rest ih =>
    intro st h
    rw [walkTree, List.foldl_cons]
    refine ih (walk_tree_entry repo ctime env st a) ?_
    obtain ⟨extra, hev, hex⟩ := walk_tree_entry_evs_shape repo ctime env st a
    rw [hev]
    intro x hx
    rcases List.mem_append.mp hx with hx | hx
    · exact h x hx
    · exact hex x hx

theorem walkTree_ident (repo : Oid → Blob) (ctime : Int) (env : EnvB) :
    ∀ (tree : List Entry) (st : WalkSt),
      (∀ e ∈ tree, e.kind = EntryKind.blob → get_oid st.g e.path = some e.oid) →
      (∀ e ∈ tree, e.kind = EntryKind.tree → absolute_path env e.path ∈ st.fs) →
      (walkTree repo ctime env tree st).g = st.g ∧
      (walkTree repo ctime env tree st).fs = st.fs ∧
      (walkTree repo ctime env tree st).evs = st.evs ∧
      (walkTree repo ctime env tree st).cs.binary = st.cs.binary ∧
      (walkTree repo ctime env tree st).cs.non_binary = st.cs.non_binary ∧
      (∀ p ∈ st.cs.seen, p ∈ (walkTree repo ctime env tree st).cs.seen) ∧
      (∀ e ∈ tree, e.kind = EntryKind.blob →
        e.path ∈ (walkTree repo ctime env tree st).cs.seen) := by
  intro tree
  induction tree with
  | nil =>
    intro st _ _
    refine ⟨rfl, rfl, rfl, rfl, rfl, fun p hp => hp, ?_⟩
    intro e he
    cases he
  | cons a rest ih =>
    intro st hblob hdir
    cases hk : a.kind with
    | blob =>
      have hg : get_oid st.g a.path = some a.oid := hblob a (List.mem_cons_self a rest) hk
      have hst : walk_tree_entry repo ctime env st a =
          { st with cs := seen_file st.cs a.path } := by
        simp [walk_tree_entry, hk, hg]
      have hw : walkTree repo ctime env (a :: rest) st =
          walkTree repo ctime env rest ({ st with cs := seen_file st.cs a.path }) := by
        rw [walkTree, List.foldl_cons, hst]
        rfl
      have hblob' : ∀ e ∈ rest, e.kind = EntryKind.blob →
          get_oid ({ st with cs := seen_file st.cs a.path } : WalkSt).g e.path = some e.oid :=
        fun e he hke => hblob e (List.mem_cons_of_mem a he) hke
      have hdir' : ∀ e ∈ rest, e.kind = EntryKind.tree →
          absolute_path env e.path ∈ ({ st with cs := seen_file st.cs a.path } : WalkSt).fs :=
        fun e he hke => hdir e (List.mem_cons_of_mem a he) hke
      obtain ⟨ihg, ihfs, ihevs, ihbin, ihnb, ihmono, ihseen⟩ := ih _ hblob' hdir'
      rw [hw]
      refine ⟨ihg, ihfs, ihevs, ?_, ?_, ?_, ?_⟩
      · exact ihbin.trans (seen_file_binary st.cs a.path)
      · exact ihnb.trans (seen_file_non_binary st.cs a.path)
      · exact fun p hp => ihmono p (seen_file_mono st.cs a.path hp)
      · intro e he hke
        rcases List.mem_cons.mp he with rfl | he2
        · exact ihmono e.path (seen_file_self st.cs e.path)
        · exact ihseen e he2 hke
    | tree =>
      have hm : absolute_path env a.path ∈ st.fs := hdir a (List.mem_cons_self a rest) hk
      have hst : walk_tree_entry repo ctime env st a = st := by
        simp [walk_tree_entry, hk, hm]
      have hw : walkTree repo ctime env (a :: rest) st = walkTree repo ctime env rest st := by
        rw [walkTree, List.foldl_cons, hst]
        rfl
      have hblob' : ∀ e ∈ rest, e.kind = EntryKind.blob → get_oid st.g e.path = some e.oid :=
        fun e he hke => hblob e (List.mem_cons_of_mem a he) hke
      have hdir' : ∀ e ∈ rest, e.kind = EntryKind.tree → absolute_path env e.path ∈ st.fs :=
        fun e he hke => hdir e (List.mem_cons_of_mem a he) hke
      obtain ⟨ihg, ihfs, ihevs, ihbin, ihnb, ihmono, ihseen⟩ := ih st hblob' hdir'
      rw [hw]
      refine ⟨ihg, ihfs, ihevs, ihbin, ihnb, ihmono, ?_⟩
      intro e he hke
      rcases List.mem_cons.mp he with rfl | he2
      · rw [hk] at hke
        cases hke
      · exact ihseen e he2 hke
    | other =>
      have hst : walk_tree_entry repo ctime env st a = st := by
        simp [walk_tree_entry, hk]
      have hw : walkTree repo ctime env (a :: rest) st = walkTree repo ctime env rest st := by
        rw [walkTree, List.foldl_cons, hst]
        rfl
      have hblob' : ∀ e ∈ rest, e.kind = EntryKind.blob → get_oid st.g e.path = some e.oid :=
        fun e he hke => hblob e (List.mem_cons_of_mem a he) hke
      have hdir' : ∀ e ∈ rest, e.kind = EntryKind.tree → absolute_path env e.path ∈ st.fs :=
        fun e he hke => hdir e (List.mem_cons_of_mem a he) hke
      obtain ⟨ihg, ihfs, ihevs, ihbin, ihnb, ihmono, ihseen⟩ := ih st hblob' hdir'
      rw [hw]
      refine ⟨ihg, ihfs, ihevs, ihbin, ihnb, ihmono, ?_⟩
      intro e he hke
      rcases List.mem_cons.mp he with rfl | he2
      · rw [hk] at hke
        cases hke
      · exact ihseen e he2 hke

/-- C9: Replay idempotence on identical content — when every blob entry's
oid equals the oid recorded in Global state for its handle, every directory
already exists on disk, and every recorded handle is a blob of the tree
(the observable meaning of the tree being bit-identical to its
predecessor's), processing the commit changes no state, writes nothing,
issues no add or remove, and emits exactly one commit. -/
theorem process_identical (repo : Oid → Blob) (env : EnvB) (limit : Nat) (tree : List Entry)
    (ctime : Int) (msg : List Nat) (g : List (String × Oid)) (fs : List String)
    (hblob : ∀ e ∈ tree, e.kind = EntryKind.blob → get_oid g e.path = some e.oid)
    (hdir : ∀ e ∈ tree, e.kind = EntryKind.tree → absolute_path env e.path ∈ fs)
    (hkeys : ∀ kv ∈ g, ∃ e ∈ tree, e.kind = EntryKind.blob ∧ e.path = kv.1) :
    processCommit repo env limit tree ctime msg g fs = (g, fs, [Ev.cvsCommit msg]) := by
  obtain ⟨hg, hfs, hevs, hbin, hnb, hmono, hseen⟩ :=
    walkTree_ident repo ctime env tree ⟨g, fs, CState.empty, []⟩ hblob hdir
  have hseenW : ∀ kv ∈ g,
      kv.1 ∈ (walkTree repo ctime env tree ⟨g, fs, CState.empty, []⟩).cs.seen := by
    intro kv hkv
    obtain ⟨e, he, hke, hp⟩ := hkeys kv hkv
    have hh := hseen e he hke
    rwa [hp] at hh
  have hkeep : g.filter
      (fun kv => decide (kv.1 ∈ (walkTree repo ctime env tree ⟨g, fs, CState.empty, []⟩).cs.seen)) =
      g := by
    rw [List.filter_eq_self]
    intro kv hkv
    simp [hseenW kv hkv]
  have hrem : g.filter
      (fun kv => decide (kv.1 ∉ (walkTree repo ctime env tree ⟨g, fs, CState.empty, []⟩).cs.seen)) =
      [] := by
    rw [List.filter_eq_nil_iff]
    intro kv hkv
    simp [hseenW kv hkv]
  simp only [processCommit, remove_files_unseen_in_commit, hg, hfs, hevs, hbin, hnb]
  rw [hkeep, hrem]
  simp [remove_multiple, add_multiple, chunkRun, chunkGo, CState.empty]

/-- Witness for `process_identical`: a second commit with the same single
blob `a` as already recorded produces only the commit invocation. -/
theorem process_identical_witness :
    processCommit repo0 env0 100 treeA 0 [7] [("a", 1)] [] =
      ([("a", 1)], [], [Ev.cvsCommit [7]]) :=
  process_identical repo0 env0 100 treeA 0 [7] [("a", 1)] [] (by decide) (by decide) (by decide)

/-- C1 counterexample: replaying a commit whose tree no longer contains the
previously written file `a` invokes LVCS remove on `src/a` but emits no
filesystem unlink event at all, so the file is not removed from the working
directory before (or after) the LVCS remove. -/
theorem unlink_before_remove_cex :
    (processCommit repo0 env0 100 [] 0 [7] [("a", 1)] []).2.2 =
      [Ev.cvsRemove ["src/a"], Ev.cvsCommit [7]] ∧
    Ev.fsUnlink (absolute_path env0 "a") ∉
      (processCommit repo0 env0 100 [] 0 [7] [("a", 1)] []).2.2 := by
  constructor
  · rfl
  · decide

/-- C1 (amended): processing a commit performs no filesystem unlink at all;
each handle returned by `remove_files_unseen_in_commit` has its
`cvs_relative_path` passed to LVCS remove in one of the emitted batches. -/
theorem removed_files_no_unlink (repo : Oid → Blob) (env : EnvB) (limit : Nat)
    (tree : List Entry) (ctime : Int) (msg : List Nat) (g : List (String × Oid))
    (fs : List String) :
    (∀ x ∈ (processCommit repo env limit tree ctime msg g fs).2.2, isUnlink x = false) ∧
    (∀ p ∈ (remove_files_unseen_in_commit
        (walkTree repo ctime env tree ⟨g, fs, CState.empty, []⟩).g
        (walkTree repo ctime env tree ⟨g, fs, CState.empty, []⟩).cs.seen).2,
      ∃ batch, Ev.cvsRemove batch ∈ (processCommit repo env limit tree ctime msg g fs).2.2 ∧
        cvs_relative_path env p ∈ batch) := by
  constructor
  · intro x hx
    simp only [processCommit] at hx
    rcases List.mem_append.mp hx with hx | hx
    rcases List.mem_append.mp hx with hx | hx
    rcases List.mem_append.mp hx with hx | hx
    rcases List.mem_append.mp hx with hx | hx
    · exact walkTree_unlink repo ctime env tree ⟨g, fs, CState.empty, []⟩
        (by intro y hy; cases hy) x hx
    · obtain ⟨batch, _, rfl⟩ := List.mem_map.mp hx
      rfl
    · obtain ⟨batch, _, rfl⟩ := List.mem_map.mp hx
      rfl
    · obtain ⟨batch, _, rfl⟩ := List.mem_map.mp hx
      rfl
    · rcases List.mem_singleton.mp hx with rfl
      rfl
  · intro p hp
    have hflat : cvs_relative_path env p ∈ (chunkRun String.utf8ByteSize limit
        ((remove_files_unseen_in_commit
          (walkTree repo ctime env tree ⟨g, fs, CState.empty, []⟩).g
          (walkTree repo ctime env tree ⟨g, fs, CState.empty, []⟩).cs.seen).2.map
            (cvs_relative_path env))).flatten := by
      rw [chunkRun, chunkGo_flatten, List.nil_append]
      exact List.mem_map_of_mem _ hp
    obtain ⟨batch, hbatch, hpin⟩ := List.mem_flatten.mp hflat
    refine ⟨batch, ?_, hpin⟩
    simp only [processCommit]
    exact List.mem_append_left _ (List.mem_append_left _ (List.mem_append_left _
      (List.mem_append_right _ (List.mem_map_of_mem _ hbatch))))

/-- Witness for `removed_files_no_unlink`: the removed handle `a` reaches an
LVCS remove batch in the concrete run. -/
theorem removed_files_no_unlink_witness :
    ∃ batch, Ev.cvsRemove batch ∈ (processCommit repo0 env0 100 [] 0 [7] [("a", 1)] []).2.2 ∧
      cvs_relative_path env0 "a" ∈ batch :=
  (removed_files_no_unlink repo0 env0 100 [] 0 [7] [("a", 1)] []).2 "a" (by decide)

theorem cs_inv_seen_file (cs : CState) (p : String) (P : String → Prop)
    (h1 : ∀ q ∈ cs.binary, q ∈ cs.seen) (h2 : ∀ q ∈ cs.non_binary, q ∈ cs.seen ∨ P q) :
    (∀ q ∈ (seen_file cs p).binary, q ∈ (seen_file cs p).seen) ∧
    (∀ q ∈ (seen_file cs p).non_binary, q ∈ (seen_file cs p).seen ∨ P q) := by
  constructor
  · intro q hq
    rw [seen_file_binary] at hq
    exact seen_file_mono cs p (h1 q hq)
  · intro q hq
    rw [seen_file_non_binary] at hq
    rcases h2 q hq with h | h
    · exact Or.inl (seen_file_mono cs p h)
    · exact Or.inr h

theorem cs_inv_blob_new (cs : CState) (p : String) (b : Bool) (P : String → Prop)
    (h1 : ∀ q ∈ cs.binary, q ∈ cs.seen) (h2 : ∀ q ∈ cs.non_binary, q ∈ cs.seen ∨ P q) :
    (∀ q ∈ (seen_file (new_file cs p b) p).binary, q ∈ (seen_file (new_file cs p b) p).seen) ∧
    (∀ q ∈ (seen_file (new_file cs p b) p).non_binary,
      q ∈ (seen_file (new_file cs p b) p).seen ∨ P q) := by
  cases b with
  | true =>
    constructor
    · intro q hq
      rw [seen_file_binary, new_file_true_binary] at hq
      rcases List.mem_append.mp hq with h | h
      · exact seen_file_mono _ p (by rw [new_file_seen]; exact h1 q h)
      · rcases List.mem_singleton.mp h with rfl
        exact seen_file_self _ _
    · intro q hq
      rw [seen_file_non_binary, new_file_true_non_binary] at hq
      rcases h2 q hq with h | h
      · exact Or.inl (seen_file_mono _ p (by rw [new_file_seen]; exact h))
      · exact Or.inr h
  | false =>
    constructor
    · intro q hq
      rw [seen_file_binary, new_file_false_binary] at hq
      exact seen_file_mono _ p (by rw [new_file_seen]; exact h1 q hq)
    · intro q hq
      rw [seen_file_non_binary, new_file_false_non_binary] at hq
      rcases List.mem_append.mp hq with h | h
      · rcases h2 q h with h' | h'
        · exact Or.inl (seen_file_mono _ p (by rw [new_file_seen]; exact h'))
        · exact Or.inr h'
      · rcases List.mem_singleton.mp h with rfl
        exact Or.inl (seen_file_self _ _)

theorem cs_inv_tree_new (cs : CState) (p : String) (P : String → Prop) (hP : P p)
    (h1 : ∀ q ∈ cs.binary, q ∈ cs.seen) (h2 : ∀ q ∈ cs.non_binary, q ∈ cs.seen ∨ P q) :
    (∀ q ∈ (new_file cs p false).binary, q ∈ (new_file cs p false).seen) ∧
    (∀ q ∈ (new_file cs p false).non_binary, q ∈ (new_file cs p false).seen ∨ P q) := by
  constructor
  · intro q hq
    rw [new_file_false_binary] at hq
    rw [new_file_seen]
    exact h1 q hq
  · intro q hq
    rw [new_file_false_non_binary] at hq
    rcases List.mem_append.mp hq with h | h
    · rcases h2 q h with h' | h'
      · exact Or.inl (by rw [new_file_seen]; exact h')
      · exact Or.inr h'
    · rcases List.mem_singleton.mp h with rfl
      exact Or.inr hP

theorem walk_tree_entry_seen (repo : Oid → Blob) (ctime : Int) (env : EnvB)
    (st : WalkSt) (e : Entry) (P : String → Prop)
    (h1 : ∀ p ∈ st.cs.binary, p ∈ st.cs.seen)
    (h2 : ∀ p ∈ st.cs.non_binary, p ∈ st.cs.seen ∨ P p)
    (h3 : e.kind = EntryKind.tree → P e.path) :
    (∀ p ∈ (walk_tree_entry repo ctime env st e).cs.binary,
      p ∈ (walk_tree_entry repo ctime env st e).cs.seen) ∧
    (∀ p ∈ (walk_tree_entry repo ctime env st e).cs.non_binary,
      p ∈ (walk_tree_entry repo ctime env st e).cs.seen ∨ P p) := by
  cases hk : e.kind with
  | blob =>
    cases hg : get_oid st.g e.path with
    | some last =>
      by_cases hl : last = e.oid
      · have hst : walk_tree_entry repo ctime env st e =
            { st with cs := seen_file st.cs e.path } := by
          simp [walk_tree_entry, hk, hg, hl]
        rw [hst]
        exact cs_inv_seen_file st.cs e.path P h1 h2
      · have hst : (walk_tree_entry repo ctime env st e).cs = seen_file st.cs e.path := by
          simp [walk_tree_entry, hk, hg, hl]
        rw [hst]
        exact cs_inv_seen_file st.cs e.path P h1 h2
    | none =>
      have hst : (walk_tree_entry repo ctime env st e).cs =
          seen_file (new_file st.cs e.path (repo e.oid).is_binary) e.path := by
        simp [walk_tree_entry, hk, hg]
      rw [hst]
      exact cs_inv_blob_new st.cs e.path (repo e.oid).is_binary P h1 h2
  | tree =>
    by_cases hm : absolute_path env e.path ∈ st.fs
    · have hst : walk_tree_entry repo ctime env st e = st := by
        simp [walk_tree_entry, hk, hm]
      rw [hst]
      exact ⟨h1, h2⟩
    · have hst : (walk_tree_entry repo ctime env st e).cs = new_file st.cs e.path false := by
        simp [walk_tree_entry, hk, hm]
      rw [hst]
      exact cs_inv_tree_new st.cs e.path P (h3 hk) h1 h2
  | other =>
    have hst : walk_tree_entry repo ctime env st e = st := by
      simp [walk_tree_entry, hk]
    rw [hst]
    exact ⟨h1, h2⟩

theorem walkTree_seen (repo : Oid → Blob) (ctime : Int) (env : EnvB) (P : String → Prop) :
    ∀ (tree : List Entry) (st : WalkSt),
      (∀ p ∈ st.cs.binary, p ∈ st.cs.seen) →
      (∀ p ∈ st.cs.non_binary, p ∈ st.cs.seen ∨ P p) →
      (∀ e ∈ tree, e.kind = EntryKind.tree → P e.path) →
      (∀ p ∈ (walkTree repo ctime env tree st).cs.binary,
        p ∈ (walkTree repo ctime env tree st).cs.seen) ∧
      (∀ p ∈ (walkTree repo ctime env tree st).cs.non_binary,
        p ∈ (walkTree repo ctime env tree st).cs.seen ∨ P p) := by
  intro tree
  induction tree with
  | nil =>
    intro st h1 h2 _
    exact ⟨h1, h2⟩
  | cons a rest ih =>
    intro st h1 h2 h3
    rw [walkTree, List.foldl_cons]
    obtain ⟨g1, g2⟩ := walk_tree_entry_seen repo ctime env st a P h1 h2
      (h3 a (List.mem_cons_self a rest))
    exact ih (walk_tree_entry repo ctime env st a) g1 g2
      (fun e he hke => h3 e (List.mem_cons_of_mem a he) hke)

/-- C4 counterexample: a commit whose tree contains one directory entry `d`
that does not yet exist on disk records `d` in `text_new` via `new_file`
but never calls `seen_file`, so `seen ⊇ binary_new ∪ text_new` fails. -/
theorem seen_superset_cex :
    ¬ (∀ p ∈ (walkTree repo0 0 env0 treeD ⟨[], [], CState.empty, []⟩).cs.non_binary,
        p ∈ (walkTree repo0 0 env0 treeD ⟨[], [], CState.empty, []⟩).cs.seen) := by
  decide

/-- C4 (amended): at every point of a commit's tree walk, every handle in
`binary_new` is in `seen`, and every handle in `text_new` is either in
`seen` (the blob case) or is the path of a Tree entry of the walked tree (a
newly created directory, which is recorded without being marked seen). -/
theorem seen_superset_amended (repo : Oid → Blob) (ctime : Int) (env : EnvB)
    (tree : List Entry) (g : List (String × Oid)) (fs : List String) :
    (∀ p ∈ (walkTree repo ctime env tree ⟨g, fs, CState.empty, []⟩).cs.binary,
      p ∈ (walkTree repo ctime env tree ⟨g, fs, CState.empty, []⟩).cs.seen) ∧
    (∀ p ∈ (walkTree repo ctime env tree ⟨g, fs, CState.empty, []⟩).cs.non_binary,
      p ∈ (walkTree repo ctime env tree ⟨g, fs, CState.empty, []⟩).cs.seen ∨
        ∃ e ∈ tree, e.kind = EntryKind.tree ∧ e.path = p) :=
  walkTree_seen repo ctime env (fun p => ∃ e ∈ tree, e.kind = EntryKind.tree ∧ e.path = p)
    tree ⟨g, fs, CState.empty, []⟩ (by intro p hp; cases hp) (by intro p hp; cases hp)
    (fun e he hke => ⟨e, he, hke, rfl⟩)

/-- Witness for `seen_superset_amended`: the newly added binary blob `a` is
in `seen`. -/
theorem seen_superset_amended_witness :
    "a" ∈ (walkTree repoB 0 env0 treeA ⟨[], [], CState.empty, []⟩).cs.seen :=
  (seen_superset_amended repoB 0 env0 treeA [] []).1 "a" (by decide)

/-- C8: when the metadata store already maps the requested branch, the
replay fails with no event at all — `write_branch` is not called, no
temporary directory is created, no LVCS operation is invoked, and the store
is unchanged. -/
theorem refuse_existing_branch (db : DbState) (branchTip : Option Oid)
    (fp : Oid → Option Oid) (repo : Oid → Blob) (trees : Oid → List Entry)
    (times : Oid → Int) (msgs : Oid → List Nat) (branchName : String) (env : EnvB)
    (limit fuel : Nat) (failAt : Option Nat) (s : String)
    (h : get_cvs_branch db branchName = some s) :
    replayMain db branchTip fp repo trees times msgs branchName env limit fuel failAt =
      (db, [], false) := by
  cases branchTip with
  | none => rfl
  | some tip => simp [replayMain, h]

/-- Witness for `refuse_existing_branch` on the pre-seeded store `db0`. -/
theorem refuse_existing_branch_witness :
    replayMain db0 (some 3) fpW repo0 (fun _ => treeA) (fun _ => 0) (fun _ => [7]) "main"
      env0 100 10 none = (db0, [], false) :=
  refuse_existing_branch db0 (some 3) fpW repo0 (fun _ => treeA) (fun _ => 0) (fun _ => [7])
    "main" env0 100 10 none "main" (by decide)

/-- C10: draining an empty path iterator through `add_multiple` or
`remove_multiple` invokes the LVCS subprocess zero times — the
destruction-time flush only runs when the accumulated batch is non-empty,
so no empty `add` or `remove` command line is emitted. -/
theorem add_remove_multiple_empty (limit : Nat) (bin : Bool) :
    add_multiple limit [] bin = [] ∧ remove_multiple limit [] = [] :=
  ⟨rfl, rfl⟩

end GitCvs
